import Mathlib

/-!
Verification of the lock-free Michael–Scott queue (`ms-queue/src/queue.rs`)
and the Treiber stack (`treiber-stack/src/stack.rs`).

The embedding is a sequential (interference-free) shallow embedding of the
Rust code.  Heap memory is an explicit association list from addresses to
nodes; a raw pointer is `Option Addr`, with `none` playing the role of the
null pointer.  Every atomic compare-and-swap of the source is modelled by
`cas`, which compares the current contents of the location with the expected
snapshot and either installs the new value or leaves the location unchanged.
The `loop` construct of the source is modelled by a fuelled iteration of a
loop-body function; the body returns `done` when the source breaks out of
the loop, `retry` when it continues, and `stuck` when the source would
dereference an invalid pointer or read uninitialised data (undefined
behaviour).  `crossbeam_epoch`'s `guard.defer_destroy` retires a node; the
set of retired-or-destroyed nodes is tracked in the `freed` field, and node
addresses are never reused (allocation counts up), matching the reclamation
contract that memory is not recycled while it could still be referenced.
-/

/-- A memory address.  Allocation hands out successive naturals. -/
abbrev Addr := Nat

/-- A heap fragment: an association list from addresses to node values.
Updating prepends, and lookup takes the first binding, so stale bindings are
shadowed. -/
abbrev Heap (ν : Type) := List (Addr × ν)

/-- Look an address up in a heap. -/
def hget : Heap ν → Addr → Option ν
  | [], _ => none
  | (b, n) :: t, a => if b = a then some n else hget t a

/-- Store a node at an address (also used for allocation). -/
def hset (h : Heap ν) (a : Addr) (n : ν) : Heap ν := (a, n) :: h

/-- One atomic compare-and-swap on an `Option Addr` cell: returns whether it
succeeded together with the new contents of the cell. -/
def cas (cur expected new : Option Addr) : Bool × Option Addr :=
  if cur = expected then (true, new) else (false, cur)

/-- Outcome of one iteration of a source-level retry loop: `done` breaks out
with a result, `retry` continues with the updated state, `stuck` marks
undefined behaviour (invalid dereference / uninitialised read). -/
inductive StepRes (σ τ : Type) where
  | done (r : τ)
  | retry (s : σ)
  | stuck
deriving DecidableEq

/-- Run a loop body for at most `fuel` iterations. -/
def loopFuel : Nat → (σ → StepRes σ τ) → σ → Option τ
  | 0, _, _ => none
  | fuel + 1, body, s =>
    match body s with
    | .done r => some r
    | .retry s' => loopFuel fuel body s'
    | .stuck => none

namespace MSQueue

/-- `Node<T>` of `ms-queue/src/queue.rs`: `data: MaybeUninit<T>` is
`Option α` (`none` = uninitialised), `next: Atomic<Node<T>>` is an optional
address. -/
structure Node (α : Type) where
  data : Option α
  next : Option Addr
deriving DecidableEq

/-- `Queue<T>` of `ms-queue/src/queue.rs`, together with the explicit heap
of allocated nodes, the allocation counter and the list of retired nodes. -/
structure Queue (α : Type) where
  heap : Heap (Node α)
  head : Option Addr
  tail : Option Addr
  nextAddr : Addr
  freed : List Addr
deriving DecidableEq

/-- `Queue::default` / `Queue::new`: head and tail start null, then a
sentinel node with uninitialised data and null next is allocated and stored
into both. -/
def Queue.new : Queue α :=
  let q0 : Queue α := { heap := [], head := none, tail := none, nextAddr := 0, freed := [] }
  let sentinel := q0.nextAddr
  let q1 : Queue α :=
    { q0 with heap := hset q0.heap sentinel { data := none, next := none },
              nextAddr := sentinel + 1 }
  { q1 with head := some sentinel, tail := some sentinel }

/-- One iteration of the loop in `Queue::push`, after the new node has been
allocated at address `a`.  Reads `tail` and `tail.next`; a non-null next
means the tail is stale, so it is advanced (by compare-and-swap) and the
loop retries; a null next is compare-and-swapped to the new node (always
successful without interference), after which a best-effort
compare-and-swap advances `tail` to the new node and the loop breaks. -/
def Queue.pushBody (a : Addr) (q : Queue α) : StepRes (Queue α) (Queue α) :=
  let tailSnapshot := q.tail
  match tailSnapshot with
  | none => .stuck
  | some ts =>
    match hget q.heap ts with
    | none => .stuck
    | some tailRef =>
      match tailRef.next with
      | some nx =>
        let r := cas q.tail tailSnapshot (some nx)
        .retry { q with tail := r.2 }
      | none =>
        -- compare_and_set(tail_ref.next, null, new): the field still holds
        -- the null just loaded, so without interference the CAS succeeds
        let q1 := { q with heap := hset q.heap ts { tailRef with next := some a } }
        let r := cas q1.tail tailSnapshot (some a)
        .done { q1 with tail := r.2 }

/-- `Queue::push`: allocate one node holding `t` with a null next link, then
run the retry loop. -/
def Queue.push (fuel : Nat) (q : Queue α) (t : α) : Option (Queue α) :=
  let a := q.nextAddr
  let q1 := { q with heap := hset q.heap a { data := some t, next := none },
                     nextAddr := a + 1 }
  loopFuel fuel (Queue.pushBody a) q1

/-- One iteration of the loop in `Queue::try_pop`.  Reads `head` and
`head.next`; a null next returns `none` with the state untouched; otherwise
the node behind `next` is read, `tail` is helped forward when it equals the
head snapshot, and `head` is compare-and-swapped from its snapshot to
`next`; on success the old head is retired and the payload of the node that
was `head.next` is moved out and returned. -/
def Queue.tryPopBody (q : Queue α) : StepRes (Queue α) (Option α × Queue α) :=
  let headSnapshot := q.head
  match headSnapshot with
  | none => .stuck
  | some hs =>
    match hget q.heap hs with
    | none => .stuck
    | some head =>
      match head.next with
      | none => .done (none, q)
      | some nx =>
        match hget q.heap nx with
        | none => .stuck
        | some nextNode =>
          let tailSnapshot := q.tail
          let q1 :=
            if tailSnapshot = headSnapshot then
              let r := cas q.tail tailSnapshot (some nx)
              { q with tail := r.2 }
            else q
          let r := cas q1.head headSnapshot (some nx)
          if r.1 then
            match nextNode.data with
            | none => .stuck
            | some v =>
              .done (some v, { q1 with head := r.2, freed := hs :: q1.freed })
          else .retry { q1 with head := r.2 }

/-- `Queue::try_pop`: run the retry loop. -/
def Queue.tryPop (fuel : Nat) (q : Queue α) : Option (Option α × Queue α) :=
  loopFuel fuel Queue.tryPopBody q

/-- Push a whole list of values, left to right. -/
def Queue.pushAll (fuel : Nat) (q : Queue α) : List α → Option (Queue α)
  | [] => some q
  | v :: vs =>
    match Queue.push fuel q v with
    | some q' => Queue.pushAll fuel q' vs
    | none => none

/-- Call `try_pop` `n` times, collecting the observed results in order. -/
def Queue.popN (fuel : Nat) (q : Queue α) : Nat → Option (List (Option α) × Queue α)
  | 0 => some ([], q)
  | n + 1 =>
    match Queue.tryPop fuel q with
    | some (r, q') =>
      match Queue.popN fuel q' n with
      | some (rs, q'') => some (r :: rs, q'')
      | none => none
    | none => none

/-- `<Queue as Drop>::drop`, instrumented with the list of values the
drain loop pops: `try_pop` until it returns nothing, then destroy the
remaining sentinel (`self.head.load(...).into_owned()`).  `n` is fuel for
the drain loop. -/
def Queue.dropLoop (fuel : Nat) : Nat → Queue α → Option (List α × Queue α)
  | 0, _ => none
  | n + 1, q =>
    match Queue.tryPop fuel q with
    | some (some v, q') =>
      match Queue.dropLoop fuel n q' with
      | some (vs, q'') => some (v :: vs, q'')
      | none => none
    | some (none, q') =>
      match q'.head with
      | some sentinel => some ([], { q' with freed := sentinel :: q'.freed })
      | none => none
    | none => none

/-- True when the node `head` points at has a null next link (the source's
emptiness test `head.next.is_null()`).  Vacuously true when head itself is
null or dangling, which never happens in a reachable state. -/
def Queue.headNextNull (q : Queue α) : Bool :=
  match q.head with
  | none => true
  | some hs =>
    match hget q.heap hs with
    | none => true
    | some head => head.next.isNone

/-- The states a queue can reach through its public interface. -/
inductive Queue.Reachable {α : Type} : Queue α → Prop where
  | init : Queue.Reachable Queue.new
  | push {q q' : Queue α} {f : Nat} {v : α} :
      Queue.Reachable q → Queue.push f q v = some q' → Queue.Reachable q'
  | pop {q q' : Queue α} {f : Nat} {r : Option α} :
      Queue.Reachable q → Queue.tryPop f q = some (r, q') → Queue.Reachable q'


end MSQueue

namespace TreiberStack

/-- `Node<T>` of `treiber-stack/src/stack.rs`: `data: ManuallyDrop<T>` is
always initialised, `next: Atomic<Node<T>>` is an optional address. -/
structure Node (α : Type) where
  data : α
  next : Option Addr
deriving DecidableEq

/-- `Stack<T>` of `treiber-stack/src/stack.rs`, with the explicit heap,
allocation counter and retired list. -/
structure Stack (α : Type) where
  heap : Heap (Node α)
  head : Option Addr
  nextAddr : Addr
  freed : List Addr
deriving DecidableEq

/-- `Stack::default` / `Stack::new`: a null head and no nodes. -/
def Stack.new : Stack α :=
  { heap := [], head := none, nextAddr := 0, freed := [] }

/-- One iteration of the loop in `Stack::push`, with the new node already
allocated at `a`: read the head snapshot, store it into the new node's next
link, and compare-and-swap `head` from the snapshot to the new node; on
failure retry with the same node. -/
def Stack.pushBody (a : Addr) (s : Stack α) : StepRes (Stack α) (Stack α) :=
  let headSnapshot := s.head
  match hget s.heap a with
  | none => .stuck
  | some n =>
    let s1 := { s with heap := hset s.heap a { n with next := headSnapshot } }
    let r := cas s1.head headSnapshot (some a)
    if r.1 then .done { s1 with head := r.2 }
    else .retry s1

/-- `Stack::push`: allocate one node holding `t`, then run the retry loop. -/
def Stack.push (fuel : Nat) (s : Stack α) (t : α) : Option (Stack α) :=
  let a := s.nextAddr
  let s1 := { s with heap := hset s.heap a { data := t, next := none },
                     nextAddr := a + 1 }
  loopFuel fuel (Stack.pushBody a) s1

/-- One iteration of the loop in `Stack::try_pop`: a null head returns
`none` with the state untouched; otherwise `head` is compare-and-swapped
from its snapshot to the snapshot's next link; on success the old head is
retired and its payload moved out and returned. -/
def Stack.tryPopBody (s : Stack α) : StepRes (Stack α) (Option α × Stack α) :=
  let headSnapshot := s.head
  match headSnapshot with
  | none => .done (none, s)
  | some hs =>
    match hget s.heap hs with
    | none => .stuck
    | some head =>
      let r := cas s.head headSnapshot head.next
      if r.1 then
        .done (some head.data, { s with head := r.2, freed := hs :: s.freed })
      else .retry s

/-- `Stack::try_pop`: run the retry loop. -/
def Stack.tryPop (fuel : Nat) (s : Stack α) : Option (Option α × Stack α) :=
  loopFuel fuel Stack.tryPopBody s

/-- `Stack::is_empty`: a single load of `head`, true iff it is null. -/
def Stack.isEmpty (s : Stack α) : Bool := s.head.isNone

/-- Push a whole list of values, left to right. -/
def Stack.pushAll (fuel : Nat) (s : Stack α) : List α → Option (Stack α)
  | [] => some s
  | v :: vs =>
    match Stack.push fuel s v with
    | some s' => Stack.pushAll fuel s' vs
    | none => none

/-- Call `try_pop` `n` times, collecting the observed results in order. -/
def Stack.popN (fuel : Nat) (s : Stack α) : Nat → Option (List (Option α) × Stack α)
  | 0 => some ([], s)
  | n + 1 =>
    match Stack.tryPop fuel s with
    | some (r, s') =>
      match Stack.popN fuel s' n with
      | some (rs, s'') => some (r :: rs, s'')
      | none => none
    | none => none

end TreiberStack

/-! ### Heap and loop lemmas -/

theorem hget_hset_self (h : Heap ν) (a : Addr) (n : ν) : hget (hset h a n) a = some n := by
  simp [hget, hset]

theorem hget_hset_ne {h : Heap ν} {a b : Addr} {n : ν} (hne : a ≠ b) :
    hget (hset h a n) b = hget h b := by
  simp [hget, hset, hne]

theorem loopFuel_done {body : σ → StepRes σ τ} {s : σ} {r : τ}
    (hb : body s = .done r) (f : Nat) : loopFuel (f + 1) body s = some r := by
  simp [loopFuel, hb]

theorem loopFuel_eq_of_done {body : σ → StepRes σ τ} {s : σ} {r x : τ} {f : Nat}
    (hb : body s = .done r) (hx : loopFuel f body s = some x) : x = r := by
  cases f with
  | zero => simp [loopFuel] at hx
  | succ g => rw [loopFuel_done hb g] at hx; exact (Option.some.inj hx).symm

namespace MSQueue

/-! ### Representation predicate for the queue

`QSeg h a la sp vs` says: in heap `h`, starting from the node at `a` and
following `next` links one reaches the node at `la`, whose `next` is null;
`sp` is the list of addresses visited (including both ends) and `vs` the
payloads of every node after `a` (the node at `a` is the sentinel, whose
payload is never read). -/

inductive QSeg (h : Heap (Node α)) : Addr → Addr → List Addr → List α → Prop where
  | last {a : Addr} {n : Node α} :
      hget h a = some n → n.next = none → QSeg h a a [a] []
  | cons {a b la : Addr} {n m : Node α} {v : α} {sp : List Addr} {vs : List α} :
      hget h a = some n → n.next = some b →
      hget h b = some m → m.data = some v →
      QSeg h b la sp vs → QSeg h a la (a :: sp) (v :: vs)

theorem QSeg.last_node {h : Heap (Node α)} {a la : Addr} {sp : List Addr} {vs : List α}
    (hseg : QSeg h a la sp vs) : ∃ n, hget h la = some n ∧ n.next = none := by
  induction hseg with
  | last h1 h2 => exact ⟨_, h1, h2⟩
  | cons _ _ _ _ _ ih => exact ih

theorem QSeg.last_mem {h : Heap (Node α)} {a la : Addr} {sp : List Addr} {vs : List α}
    (hseg : QSeg h a la sp vs) : la ∈ sp := by
  induction hseg with
  | last _ _ => exact List.mem_singleton.mpr rfl
  | cons _ _ _ _ _ ih => exact List.mem_cons_of_mem _ ih

theorem QSeg.spine_shape {h : Heap (Node α)} {a la : Addr} {sp : List Addr} {vs : List α}
    (hseg : QSeg h a la sp vs) : ∃ sp', sp = a :: sp' := by
  cases hseg with
  | last _ _ => exact ⟨[], rfl⟩
  | cons _ _ _ _ _ => exact ⟨_, rfl⟩

theorem QSeg.congrHeap {h h2 : Heap (Node α)} {a la : Addr} {sp : List Addr} {vs : List α}
    (hseg : QSeg h a la sp vs) :
    (∀ b ∈ sp, hget h2 b = hget h b) → QSeg h2 a la sp vs := by
  induction hseg with
  | @last a n h1 h2' =>
    intro hagree
    exact QSeg.last (by rw [hagree a (List.mem_singleton.mpr rfl)]; exact h1) h2'
  | @cons a b la n m v sp vs h1 h2' h3 h4 h5 ih =>
    intro hagree
    obtain ⟨sp', hsp'⟩ := h5.spine_shape
    refine QSeg.cons ?_ h2' ?_ h4 (ih fun c hc => hagree c (List.mem_cons_of_mem _ hc))
    · rw [hagree a (List.mem_cons_self _ _)]
      exact h1
    · have hb : b ∈ a :: sp := by
        refine List.mem_cons_of_mem _ ?_
        rw [hsp']
        exact List.mem_cons_self _ _
      rw [hagree b hb]
      exact h3

theorem QSeg.nil_inv {h : Heap (Node α)} {a la : Addr} {sp : List Addr}
    (hseg : QSeg h a la sp ([] : List α)) :
    la = a ∧ sp = [a] ∧ ∃ n, hget h a = some n ∧ n.next = none := by
  cases hseg with
  | last h1 h2 => exact ⟨rfl, rfl, _, h1, h2⟩

theorem QSeg.cons_inv {h : Heap (Node α)} {a la : Addr} {sp : List Addr} {v : α}
    {vs : List α} (hseg : QSeg h a la sp (v :: vs)) :
    ∃ n b m sp', hget h a = some n ∧ n.next = some b ∧ hget h b = some m ∧
      m.data = some v ∧ sp = a :: sp' ∧ QSeg h b la sp' vs := by
  cases hseg with
  | cons h1 h2 h3 h4 h5 => exact ⟨_, _, _, _, h1, h2, h3, h4, rfl, h5⟩

/-- Appending a fresh node: if the chain from `a` ends at `la` (node `tn`),
`a'` is a fresh address holding node `nn` with payload `v` and a null next
link, then rewriting `la`'s next link to `a'` extends the chain to end at
`a'`, with `v` appended to the payloads. -/
theorem QSeg.extend {h : Heap (Node α)} {la a' : Addr} {tn nn : Node α} {v : α}
    (hla : hget h la = some tn) (hnn : hget h a' = some nn)
    (hdata : nn.data = some v) (hnext : nn.next = none) :
    ∀ (vs : List α) (a : Addr) (sp : List Addr), QSeg h a la sp vs →
      sp.Nodup → a' ∉ sp →
      QSeg (hset h la { tn with next := some a' }) a a' (sp ++ [a']) (vs ++ [v]) := by
  intro vs
  induction vs with
  | nil =>
    intro a sp hseg hnd hfresh
    obtain ⟨hla_eq, hsp_eq, n, h1, h2⟩ := hseg.nil_inv
    subst hla_eq
    subst hsp_eq
    have htn : n = tn := Option.some.inj (h1.symm.trans hla)
    subst htn
    have hne : a' ≠ la := fun hEq => hfresh (List.mem_singleton.mpr hEq)
    refine QSeg.cons (hget_hset_self _ _ _) rfl ?_ hdata ?_
    · rw [hget_hset_ne (Ne.symm hne)]
      exact hnn
    · exact QSeg.last (by rw [hget_hset_ne (Ne.symm hne)]; exact hnn) hnext
  | cons v0 vs0 ih =>
    intro a sp hseg hnd hfresh
    obtain ⟨n, b, m, sp0, h1, h2, h3, h4, hsp, h5⟩ := hseg.cons_inv
    subst hsp
    have hla_mem : la ∈ sp0 := h5.last_mem
    have ha_ne_la : a ≠ la := fun hEq => (List.nodup_cons.mp hnd).1 (hEq ▸ hla_mem)
    have h1' : hget (hset h la { tn with next := some a' }) a = some n := by
      rw [hget_hset_ne (Ne.symm ha_ne_la)]
      exact h1
    have hsub : QSeg (hset h la { tn with next := some a' }) b a' (sp0 ++ [a'])
        (vs0 ++ [v]) :=
      ih b sp0 h5 (List.nodup_cons.mp hnd).2 (fun hc => hfresh (List.mem_cons_of_mem _ hc))
    by_cases hbla : b = la
    · subst hbla
      have hm : m = tn := Option.some.inj (h3.symm.trans hla)
      subst hm
      exact QSeg.cons h1' h2 (hget_hset_self _ _ _) h4 hsub
    · have h3' : hget (hset h la { tn with next := some a' }) b = some m := by
        rw [hget_hset_ne (Ne.symm hbla)]
        exact h3
      exact QSeg.cons h1' h2 h3' h4 hsub

/-- The abstraction relation: `q` is a well-formed queue holding exactly the
values `vs` (oldest first).  The spine `sp` runs from the sentinel at `head`
to the node at `tail`; together with the retired nodes it accounts for every
address ever allocated, each exactly once. -/
def QRep (q : Queue α) (vs : List α) : Prop :=
  ∃ ha ta sp, q.head = some ha ∧ q.tail = some ta ∧
    QSeg q.heap ha ta sp vs ∧ (sp ++ q.freed).Perm (List.range q.nextAddr)

theorem perm_range_nodup {sp fr : List Addr} {n : Nat}
    (hperm : (sp ++ fr).Perm (List.range n)) : sp.Nodup :=
  (hperm.nodup_iff.mpr (List.nodup_range _)).of_append_left

theorem perm_range_lt {sp fr : List Addr} {n : Nat}
    (hperm : (sp ++ fr).Perm (List.range n)) : ∀ b ∈ sp, b < n := fun b hb =>
  List.mem_range.mp (hperm.mem_iff.mp (List.mem_append_left _ hb))

theorem perm_range_snoc {sp fr : List Addr} {n : Nat}
    (hperm : (sp ++ fr).Perm (List.range n)) :
    ((sp ++ [n]) ++ fr).Perm (List.range (n + 1)) := by
  have hstep : ((sp ++ [n]) ++ fr).Perm ((sp ++ fr) ++ [n]) := by
    rw [List.append_assoc, List.append_assoc]
    exact List.Perm.append_left sp (@List.perm_append_comm _ [n] fr)
  rw [List.range_succ]
  exact hstep.trans (hperm.append_right [n])

/-- A successful `push` on a well-formed queue: it returns within one loop
iteration (any positive fuel suffices), appends the value, and leaves the
head pointer and the retired list untouched. -/
theorem Queue.push_spec {q : Queue α} {vs : List α} (hrep : QRep q vs) (v : α) :
    ∃ q', (∀ f, Queue.push (f + 1) q v = some q') ∧ QRep q' (vs ++ [v]) ∧
      q'.head = q.head ∧ q'.nextAddr = q.nextAddr + 1 ∧ q'.freed = q.freed := by
  obtain ⟨ha, ta, sp, hh, ht, hseg, hperm⟩ := hrep
  obtain ⟨qh, qhd, qtl, qn, qfr⟩ := q
  dsimp only at hh ht hseg hperm ⊢
  subst hh
  subst ht
  have hnd : sp.Nodup := perm_range_nodup hperm
  have hbound : ∀ b ∈ sp, b < qn := perm_range_lt hperm
  obtain ⟨tn, htn, htnnext⟩ := hseg.last_node
  have hta_lt : ta < qn := hbound ta hseg.last_mem
  have hqn_ne_ta : qn ≠ ta := Nat.ne_of_gt hta_lt
  have hfresh : qn ∉ sp := fun hin => Nat.lt_irrefl qn (hbound qn hin)
  have hget1 : hget (hset qh qn { data := some v, next := none }) ta = some tn := by
    rw [hget_hset_ne hqn_ne_ta]
    exact htn
  refine ⟨⟨hset (hset qh qn { data := some v, next := none }) ta { tn with next := some qn },
          some ha, some qn, qn + 1, qfr⟩, ?_, ?_, rfl, rfl, rfl⟩
  · intro f
    have hbody : Queue.pushBody qn
        ⟨hset qh qn { data := some v, next := none }, some ha, some ta, qn + 1, qfr⟩ =
        .done ⟨hset (hset qh qn { data := some v, next := none }) ta
                 { tn with next := some qn },
               some ha, some qn, qn + 1, qfr⟩ := by
      simp [Queue.pushBody, cas, hget1, htnnext]
    show loopFuel (f + 1) (Queue.pushBody qn) _ = _
    rw [loopFuel_done hbody f]
  · refine ⟨ha, qn, sp ++ [qn], rfl, rfl, ?_, perm_range_snoc hperm⟩
    have hseg1 : QSeg (hset qh qn { data := some v, next := none }) ha ta sp vs :=
      hseg.congrHeap fun b hb => hget_hset_ne (Nat.ne_of_gt (hbound b hb))
    exact QSeg.extend hget1 (hget_hset_self _ _ _) rfl rfl vs ha sp hseg1 hnd hfresh

/-- A successful `try_pop` on a well-formed non-empty queue: it returns the
oldest value within one loop iteration, retires the old sentinel, and the
node that held the returned value becomes the new sentinel. -/
theorem Queue.pop_spec_cons {q : Queue α} {v : α} {vs : List α}
    (hrep : QRep q (v :: vs)) :
    ∃ ha q', q.head = some ha ∧
      (∀ f, Queue.tryPop (f + 1) q = some (some v, q')) ∧ QRep q' vs ∧
      q'.nextAddr = q.nextAddr ∧ q'.freed = ha :: q.freed := by
  obtain ⟨ha, ta, sp, hh, ht, hseg, hperm⟩ := hrep
  obtain ⟨qh, qhd, qtl, qn, qfr⟩ := q
  dsimp only at hh ht hseg hperm ⊢
  subst hh
  subst ht
  obtain ⟨n, b, m, sp', h1, h2, h3, h4, hsp, h5⟩ := hseg.cons_inv
  subst hsp
  have hnd : (ha :: sp').Nodup := perm_range_nodup hperm
  have hta_ne_ha : ta ≠ ha := by
    intro hEq
    exact (List.nodup_cons.mp hnd).1 (hEq ▸ h5.last_mem)
  have hbody : Queue.tryPopBody ⟨qh, some ha, some ta, qn, qfr⟩ =
      .done (some v, ⟨qh, some b, some ta, qn, ha :: qfr⟩) := by
    simp [Queue.tryPopBody, cas, h1, h2, h3, h4, hta_ne_ha]
  refine ⟨ha, ⟨qh, some b, some ta, qn, ha :: qfr⟩, rfl, ?_, ?_, rfl, rfl⟩
  · intro f
    show loopFuel (f + 1) Queue.tryPopBody _ = _
    rw [loopFuel_done hbody f]
  · refine ⟨b, ta, sp', rfl, rfl, h5, ?_⟩
    rw [List.cons_append] at hperm
    exact List.perm_middle.trans hperm

/-- `try_pop` on a well-formed empty queue returns nothing and leaves the
state exactly as it was. -/
theorem Queue.pop_spec_nil {q : Queue α} (hrep : QRep q ([] : List α)) :
    ∀ f, Queue.tryPop (f + 1) q = some (none, q) := by
  obtain ⟨ha, ta, sp, hh, ht, hseg, hperm⟩ := hrep
  obtain ⟨hta, hsp, n, h1, h2⟩ := hseg.nil_inv
  have hbody : Queue.tryPopBody q = .done (none, q) := by
    obtain ⟨qh, qhd, qtl, qn, qfr⟩ := q
    dsimp only at hh ht h1 ⊢
    subst hh
    simp [Queue.tryPopBody, h1, h2]
  intro f
  show loopFuel (f + 1) Queue.tryPopBody _ = _
  rw [loopFuel_done hbody f]

/-- The freshly constructed queue is well-formed and holds no values. -/
theorem Queue.new_rep : QRep (Queue.new : Queue α) [] := by
  refine ⟨0, 0, [0], rfl, rfl, QSeg.last rfl rfl, ?_⟩
  show ([0] ++ ([] : List Addr)).Perm (List.range 1)
  decide

/-- Every reachable queue state is well-formed. -/
theorem Queue.reachable_rep {q : Queue α} (h : Queue.Reachable q) : ∃ vs, QRep q vs := by
  induction h with
  | init => exact ⟨[], Queue.new_rep⟩
  | @push q0 q' f v hq hstep ih =>
    obtain ⟨vs, hrep⟩ := ih
    obtain ⟨q2, hpush, hrep2, _, _, _⟩ := Queue.push_spec hrep v
    cases f with
    | zero => simp [Queue.push, loopFuel] at hstep
    | succ g =>
      rw [hpush g] at hstep
      obtain rfl := Option.some.inj hstep
      exact ⟨vs ++ [v], hrep2⟩
  | @pop q0 q' f r hq hstep ih =>
    obtain ⟨vs, hrep⟩ := ih
    cases f with
    | zero => simp [Queue.tryPop, loopFuel] at hstep
    | succ g =>
      cases vs with
      | nil =>
        rw [Queue.pop_spec_nil hrep g] at hstep
        have h2 := Option.some.inj hstep
        obtain ⟨rfl, rfl⟩ : none = r ∧ q0 = q' :=
          ⟨congrArg Prod.fst h2, congrArg Prod.snd h2⟩
        exact ⟨[], hrep⟩
      | cons v vs' =>
        obtain ⟨ha, q2, hhead, hpop, hrep2, _, _⟩ := Queue.pop_spec_cons hrep
        rw [hpop g] at hstep
        have h2 := Option.some.inj hstep
        obtain ⟨rfl, rfl⟩ : some v = r ∧ q2 = q' :=
          ⟨congrArg Prod.fst h2, congrArg Prod.snd h2⟩
        exact ⟨vs', hrep2⟩

/-- Pushing a list of values onto a well-formed queue appends it. -/
theorem Queue.pushAll_spec :
    ∀ (vs : List α) (q : Queue α) (acc : List α), QRep q acc →
      ∃ q', Queue.pushAll 1 q vs = some q' ∧ QRep q' (acc ++ vs) := by
  intro vs
  induction vs with
  | nil =>
    intro q acc hrep
    exact ⟨q, rfl, by simpa using hrep⟩
  | cons v vs ih =>
    intro q acc hrep
    obtain ⟨q2, hpush, hrep2, _, _, _⟩ := Queue.push_spec hrep v
    obtain ⟨q', hall, hrep'⟩ := ih q2 (acc ++ [v]) hrep2
    have hp : Queue.push 1 q v = some q2 := hpush 0
    refine ⟨q', ?_, by simpa [List.append_assoc] using hrep'⟩
    simp [Queue.pushAll, hp, hall]

/-- Popping a well-formed queue `length + 1` times yields all its values in
order followed by an empty answer. -/
theorem Queue.popN_spec :
    ∀ (vs : List α) (q : Queue α), QRep q vs →
      ∃ q', Queue.popN 1 q (vs.length + 1) = some (vs.map some ++ [none], q') ∧
        QRep q' [] := by
  intro vs
  induction vs with
  | nil =>
    intro q hrep
    refine ⟨q, ?_, hrep⟩
    simp [Queue.popN, Queue.pop_spec_nil hrep 0]
  | cons v vs ih =>
    intro q hrep
    obtain ⟨ha, q2, hhead, hpop, hrep2, _, _⟩ := Queue.pop_spec_cons hrep
    obtain ⟨q', hpn, hrep'⟩ := ih q2 hrep2
    have hp : Queue.tryPop 1 q = some (some v, q2) := hpop 0
    refine ⟨q', ?_, hrep'⟩
    show Queue.popN 1 q (vs.length + 1 + 1) = some (some v :: (vs.map some ++ [none]), q')
    have e1 : Queue.popN 1 q (vs.length + 1 + 1) =
        match Queue.tryPop 1 q with
        | some (r, q0) =>
          match Queue.popN 1 q0 (vs.length + 1) with
          | some (rs, q1) => some (r :: rs, q1)
          | none => none
        | none => none := rfl
    rw [e1, hp]
    dsimp only
    rw [hpn]

/-- The teardown drain of a well-formed queue pops all values in order,
then destroys the remaining sentinel; afterwards every allocated node has
been destroyed exactly once. -/
theorem Queue.dropLoop_spec :
    ∀ (vs : List α) (q : Queue α), QRep q vs →
      ∃ q', Queue.dropLoop 1 (vs.length + 1) q = some (vs, q') ∧
        q'.freed.Perm (List.range q.nextAddr) ∧
        q'.freed.length = q.freed.length + (vs.length + 1) ∧
        q'.nextAddr = q.nextAddr := by
  intro vs
  induction vs with
  | nil =>
    intro q hrep
    have hp : Queue.tryPop 1 q = some (none, q) := Queue.pop_spec_nil hrep 0
    obtain ⟨ha, ta, sp, hh, ht, hseg, hperm⟩ := hrep
    obtain ⟨hta, hsp, n, h1, h2⟩ := hseg.nil_inv
    subst hsp
    refine ⟨{ q with freed := ha :: q.freed }, ?_, ?_, ?_, rfl⟩
    · simp [Queue.dropLoop, hp, hh]
    · simpa using hperm
    · simp
  | cons v vs ih =>
    intro q hrep
    obtain ⟨ha, q2, hhead, hpop, hrep2, hna, hfr⟩ := Queue.pop_spec_cons hrep
    obtain ⟨q', hdl, hperm', hlen', hna'⟩ := ih q2 hrep2
    have hp : Queue.tryPop 1 q = some (some v, q2) := hpop 0
    refine ⟨q', ?_, ?_, ?_, ?_⟩
    · show Queue.dropLoop 1 (vs.length + 1 + 1) q = some (v :: vs, q')
      have e1 : Queue.dropLoop 1 (vs.length + 1 + 1) q =
          match Queue.tryPop 1 q with
          | some (some v0, q0) =>
            match Queue.dropLoop 1 (vs.length + 1) q0 with
            | some (vs0, q1) => some (v0 :: vs0, q1)
            | none => none
          | some (none, q0) =>
            match q0.head with
            | some sentinel => some ([], { q0 with freed := sentinel :: q0.freed })
            | none => none
          | none => none := rfl
      rw [e1, hp]
      dsimp only
      rw [hdl]
    · rw [hna] at hperm'
      exact hperm'
    · rw [hlen', hfr]
      simp [List.length_cons]
      omega
    · rw [hna', hna]

end MSQueue

namespace TreiberStack

/-! ### Representation predicate for the stack

`SSeg h p sp vs` says: in heap `h`, starting from pointer `p` and following
next links one reaches null; `sp` lists the addresses visited and `vs` the
payloads in order (top of stack first). -/

inductive SSeg (h : Heap (Node α)) : Option Addr → List Addr → List α → Prop where
  | nil : SSeg h none [] []
  | cons {a : Addr} {n : Node α} {sp : List Addr} {vs : List α} :
      hget h a = some n → SSeg h n.next sp vs →
      SSeg h (some a) (a :: sp) (n.data :: vs)

theorem SSeg.heapAgree {h h2 : Heap (Node α)} {p : Option Addr} {sp : List Addr}
    {vs : List α} (hseg : SSeg h p sp vs) :
    (∀ b ∈ sp, hget h2 b = hget h b) → SSeg h2 p sp vs := by
  induction hseg with
  | nil => intro _; exact SSeg.nil
  | @cons a n sp vs h1 h2' ih =>
    intro hagree
    exact SSeg.cons (by rw [hagree a (List.mem_cons_self _ _)]; exact h1)
      (ih fun c hc => hagree c (List.mem_cons_of_mem _ hc))

theorem SSeg.inv_nil {h : Heap (Node α)} {p : Option Addr} {sp : List Addr}
    (hseg : SSeg h p sp ([] : List α)) : p = none ∧ sp = [] := by
  cases hseg with
  | nil => exact ⟨rfl, rfl⟩

theorem SSeg.inv_cons {h : Heap (Node α)} {p : Option Addr} {sp : List Addr}
    {v : α} {vs : List α} (hseg : SSeg h p sp (v :: vs)) :
    ∃ a n sp', p = some a ∧ hget h a = some n ∧ n.data = v ∧ sp = a :: sp' ∧
      SSeg h n.next sp' vs := by
  cases hseg with
  | cons h1 h2 => exact ⟨_, _, _, rfl, h1, rfl, rfl, h2⟩

/-- The abstraction relation: `s` is a well-formed stack holding exactly the
values `vs` (top first); the spine together with the retired nodes accounts
for every allocated address exactly once. -/
def SRep (s : Stack α) (vs : List α) : Prop :=
  ∃ sp, SSeg s.heap s.head sp vs ∧ (sp ++ s.freed).Perm (List.range s.nextAddr)

/-- The freshly constructed stack is well-formed and empty. -/
theorem Stack.rep_new : SRep (Stack.new : Stack α) [] := by
  refine ⟨[], SSeg.nil, ?_⟩
  show (([] : List Addr) ++ ([] : List Addr)).Perm (List.range 0)
  decide

/-- A successful `push` on a well-formed stack: it returns within one loop
iteration, puts the value on top, and leaves the retired list untouched. -/
theorem Stack.spec_push {s : Stack α} {vs : List α} (hrep : SRep s vs) (v : α) :
    ∃ s', (∀ f, Stack.push (f + 1) s v = some s') ∧ SRep s' (v :: vs) ∧
      s'.nextAddr = s.nextAddr + 1 ∧ s'.freed = s.freed := by
  obtain ⟨sp, hseg, hperm⟩ := hrep
  obtain ⟨sh, shd, sn, sfr⟩ := s
  dsimp only at hseg hperm ⊢
  have hbound : ∀ b ∈ sp, b < sn := MSQueue.perm_range_lt hperm
  refine ⟨⟨hset (hset sh sn { data := v, next := none }) sn { data := v, next := shd },
          some sn, sn + 1, sfr⟩, ?_, ?_, rfl, rfl⟩
  · intro f
    have hbody : Stack.pushBody sn ⟨hset sh sn { data := v, next := none }, shd, sn + 1, sfr⟩ =
        .done ⟨hset (hset sh sn { data := v, next := none }) sn { data := v, next := shd },
               some sn, sn + 1, sfr⟩ := by
      simp [Stack.pushBody, cas, hget_hset_self]
    show loopFuel (f + 1) (Stack.pushBody sn) _ = _
    rw [loopFuel_done hbody f]
  · refine ⟨sn :: sp, ?_, ?_⟩
    · refine SSeg.cons (hget_hset_self _ _ _) ?_
      refine hseg.heapAgree fun b hb => ?_
      have hlt : sn ≠ b := Nat.ne_of_gt (hbound b hb)
      rw [hget_hset_ne hlt, hget_hset_ne hlt]
    · rw [List.range_succ]
      have h1 : ((sn :: sp) ++ sfr).Perm ((sp ++ sfr) ++ [sn]) := by
        rw [List.cons_append]
        exact (List.perm_append_singleton _ _).symm
      exact h1.trans (hperm.append_right [sn])

/-- A successful `try_pop` on a well-formed non-empty stack: it returns the
top value within one loop iteration and retires the old head node. -/
theorem Stack.spec_pop_cons {s : Stack α} {v : α} {vs : List α}
    (hrep : SRep s (v :: vs)) :
    ∃ hsAddr s', s.head = some hsAddr ∧
      (∀ f, Stack.tryPop (f + 1) s = some (some v, s')) ∧ SRep s' vs ∧
      s'.nextAddr = s.nextAddr ∧ s'.freed = hsAddr :: s.freed := by
  obtain ⟨sp, hseg, hperm⟩ := hrep
  obtain ⟨sh, shd, sn, sfr⟩ := s
  dsimp only at hseg hperm ⊢
  obtain ⟨a, n, sp', hp, h1, hdata, hsp, hsub⟩ := hseg.inv_cons
  subst hp
  subst hsp
  subst hdata
  have hbody : Stack.tryPopBody ⟨sh, some a, sn, sfr⟩ =
      .done (some n.data, ⟨sh, n.next, sn, a :: sfr⟩) := by
    simp [Stack.tryPopBody, cas, h1]
  refine ⟨a, ⟨sh, n.next, sn, a :: sfr⟩, rfl, ?_, ?_, rfl, rfl⟩
  · intro f
    show loopFuel (f + 1) Stack.tryPopBody _ = _
    rw [loopFuel_done hbody f]
  · refine ⟨sp', hsub, ?_⟩
    rw [List.cons_append] at hperm
    exact List.perm_middle.trans hperm

/-- `try_pop` on a well-formed empty stack returns nothing and leaves the
state exactly as it was. -/
theorem Stack.spec_pop_nil {s : Stack α} (hrep : SRep s ([] : List α)) :
    ∀ f, Stack.tryPop (f + 1) s = some (none, s) := by
  obtain ⟨sp, hseg, hperm⟩ := hrep
  obtain ⟨hp, hsp⟩ := hseg.inv_nil
  have hbody : Stack.tryPopBody s = .done (none, s) := by
    obtain ⟨sh, shd, sn, sfr⟩ := s
    dsimp only at hp
    subst hp
    simp [Stack.tryPopBody]
  intro f
  show loopFuel (f + 1) Stack.tryPopBody _ = _
  rw [loopFuel_done hbody f]

/-- Pushing a list of values onto a well-formed stack stacks it reversed. -/
theorem Stack.spec_pushAll :
    ∀ (vs : List α) (s : Stack α) (acc : List α), SRep s acc →
      ∃ s', Stack.pushAll 1 s vs = some s' ∧ SRep s' (vs.reverse ++ acc) := by
  intro vs
  induction vs with
  | nil =>
    intro s acc hrep
    exact ⟨s, rfl, by simpa using hrep⟩
  | cons v vs ih =>
    intro s acc hrep
    obtain ⟨s2, hpush, hrep2, _, _⟩ := Stack.spec_push hrep v
    obtain ⟨s', hall, hrep'⟩ := ih s2 (v :: acc) hrep2
    have hp : Stack.push 1 s v = some s2 := hpush 0
    refine ⟨s', ?_, ?_⟩
    · simp [Stack.pushAll, hp, hall]
    · simpa [List.append_assoc] using hrep'

/-- Popping a well-formed stack `length + 1` times yields all its values in
order (top first) followed by an empty answer. -/
theorem Stack.spec_popN :
    ∀ (vs : List α) (s : Stack α), SRep s vs →
      ∃ s', Stack.popN 1 s (vs.length + 1) = some (vs.map some ++ [none], s') ∧
        SRep s' [] := by
  intro vs
  induction vs with
  | nil =>
    intro s hrep
    refine ⟨s, ?_, hrep⟩
    simp [Stack.popN, Stack.spec_pop_nil hrep 0]
  | cons v vs ih =>
    intro s hrep
    obtain ⟨hsAddr, s2, hhead, hpop, hrep2, _, _⟩ := Stack.spec_pop_cons hrep
    obtain ⟨s', hpn, hrep'⟩ := ih s2 hrep2
    have hp : Stack.tryPop 1 s = some (some v, s2) := hpop 0
    refine ⟨s', ?_, hrep'⟩
    show Stack.popN 1 s (vs.length + 1 + 1) = some (some v :: (vs.map some ++ [none]), s')
    have e1 : Stack.popN 1 s (vs.length + 1 + 1) =
        match Stack.tryPop 1 s with
        | some (r, s0) =>
          match Stack.popN 1 s0 (vs.length + 1) with
          | some (rs, s1) => some (r :: rs, s1)
          | none => none
        | none => none := rfl
    rw [e1, hp]
    dsimp only
    rw [hpn]

end TreiberStack

/-! ### Claims -/

/-- C1: pushing the values `vs` in order into a fresh queue and then calling
`try_pop` `vs.length + 1` times returns exactly `vs` in push order — none
skipped, none duplicated, none fabricated — and the final call, made after
the values are drained, returns nothing. -/
theorem ms_queue_fifo_order (α : Type) (vs : List α) :
    ∃ q q', MSQueue.Queue.pushAll 1 MSQueue.Queue.new vs = some q ∧
      MSQueue.Queue.popN 1 q (vs.length + 1) = some (vs.map some ++ [none], q') := by
  obtain ⟨q, hall, hrep⟩ :=
    MSQueue.Queue.pushAll_spec vs MSQueue.Queue.new [] MSQueue.Queue.new_rep
  obtain ⟨q', hpn, _⟩ := MSQueue.Queue.popN_spec vs q (by simpa using hrep)
  exact ⟨q, q', hall, hpn⟩

/-- C2: pushing the values `vs` onto a fresh stack and then calling
`try_pop` `vs.length + 1` times returns them in exact reverse-push (LIFO)
order, and the final call, made after the stack is drained, returns
nothing. -/
theorem treiber_stack_lifo_order (α : Type) (vs : List α) :
    ∃ s s', TreiberStack.Stack.pushAll 1 TreiberStack.Stack.new vs = some s ∧
      TreiberStack.Stack.popN 1 s (vs.length + 1) =
        some (vs.reverse.map some ++ [none], s') := by
  obtain ⟨s, hall, hrep⟩ :=
    TreiberStack.Stack.spec_pushAll vs TreiberStack.Stack.new [] TreiberStack.Stack.rep_new
  obtain ⟨s', hpn, _⟩ := TreiberStack.Stack.spec_popN vs.reverse s (by simpa using hrep)
  refine ⟨s, s', hall, ?_⟩
  simpa using hpn

/-- The behaviour claimed for one iteration of `Queue::try_pop`, at a state
whose head pointer holds address `ha` and whose head node is `hn`. -/
def msTryPopSteps (q : MSQueue.Queue α) (ha : Addr) (hn : MSQueue.Node α) : Prop :=
  (hn.next = none → MSQueue.Queue.tryPopBody q = .done (none, q)) ∧
  (∀ nx m v, hn.next = some nx → hget q.heap nx = some m → m.data = some v →
    MSQueue.Queue.tryPopBody q =
      .done (some v,
        { q with tail := if q.tail = some ha then some nx else q.tail,
                 head := some nx,
                 freed := ha :: q.freed }))

/-- C3: one iteration of `Queue::try_pop` reads `head` and `head.next`; if
the next link is null it returns nothing and changes nothing; otherwise it
advances `tail` to `head.next` exactly when `tail` equals the head
snapshot, compare-and-swaps `head` from its snapshot to `head.next` (the
node that becomes the new sentinel), retires the old head and returns the
payload moved out of the node that was `head.next`. -/
theorem ms_try_pop_steps (q : MSQueue.Queue α) (ha : Addr) (hn : MSQueue.Node α)
    (hhead : q.head = some ha) (hlook : hget q.heap ha = some hn) :
    msTryPopSteps q ha hn := by
  constructor
  · intro hnil
    obtain ⟨qh, qhd, qtl, qn, qfr⟩ := q
    dsimp only at hhead hlook ⊢
    subst hhead
    simp [MSQueue.Queue.tryPopBody, hlook, hnil]
  · intro nx m v hnx hm hv
    obtain ⟨qh, qhd, qtl, qn, qfr⟩ := q
    dsimp only at hhead hlook hm ⊢
    subst hhead
    by_cases htl : qtl = some ha
    · subst htl
      simp [MSQueue.Queue.tryPopBody, cas, hlook, hnx, hm, hv]
    · simp [MSQueue.Queue.tryPopBody, cas, hlook, hnx, hm, hv, htl]

/-- A two-node queue (sentinel plus one value) used to witness the `try_pop`
step characterisation. -/
def msPopWitnessQueue : MSQueue.Queue Nat :=
  { heap := [(1, { data := some 5, next := none }), (0, { data := none, next := some 1 })],
    head := some 0, tail := some 1, nextAddr := 2, freed := [] }

theorem ms_try_pop_steps_witness :
    (msPopWitnessQueue.head = some 0 ∧
      hget msPopWitnessQueue.heap 0 = some { data := none, next := some 1 }) ∧
    msTryPopSteps msPopWitnessQueue 0 { data := none, next := some 1 } :=
  ⟨⟨rfl, rfl⟩, ms_try_pop_steps msPopWitnessQueue 0 { data := none, next := some 1 } rfl rfl⟩

/-- The behaviour claimed for `Queue::push`: one allocation before the loop,
then per iteration either a tail-advancing retry (no new allocation) or a
successful link followed by the best-effort tail advance. -/
def msPushSteps (q : MSQueue.Queue α) (v : α) (a ts : Addr) (tn : MSQueue.Node α) : Prop :=
  (∀ f, MSQueue.Queue.push f q v =
      loopFuel f (MSQueue.Queue.pushBody q.nextAddr)
        { q with heap := hset q.heap q.nextAddr { data := some v, next := none },
                 nextAddr := q.nextAddr + 1 }) ∧
  (∀ nx, tn.next = some nx →
      MSQueue.Queue.pushBody a q = .retry { q with tail := some nx }) ∧
  (tn.next = none →
      MSQueue.Queue.pushBody a q =
        .done { q with heap := hset q.heap ts { tn with next := some a },
                       tail := some a })

/-- C4: `Queue::push` allocates exactly one node with a null next link
before entering the loop; an iteration that sees a non-null `tail.next`
only advances `tail` and retries (allocating nothing and touching no other
state); an iteration that sees a null `tail.next` links the new node there
and advances `tail` to it. -/
theorem ms_push_steps (q : MSQueue.Queue α) (v : α) (a ts : Addr) (tn : MSQueue.Node α)
    (htail : q.tail = some ts) (hlook : hget q.heap ts = some tn) :
    msPushSteps q v a ts tn := by
  refine ⟨fun f => rfl, ?_, ?_⟩
  · intro nx hnx
    obtain ⟨qh, qhd, qtl, qn, qfr⟩ := q
    dsimp only at htail hlook ⊢
    subst htail
    simp [MSQueue.Queue.pushBody, cas, hlook, hnx]
  · intro hnil
    obtain ⟨qh, qhd, qtl, qn, qfr⟩ := q
    dsimp only at htail hlook ⊢
    subst htail
    simp [MSQueue.Queue.pushBody, cas, hlook, hnil]

theorem ms_push_steps_witness :
    ((MSQueue.Queue.new : MSQueue.Queue Nat).tail = some 0 ∧
      hget (MSQueue.Queue.new : MSQueue.Queue Nat).heap 0 =
        some { data := none, next := none }) ∧
    msPushSteps (MSQueue.Queue.new : MSQueue.Queue Nat) 7 1 0 { data := none, next := none } :=
  ⟨⟨rfl, rfl⟩,
    ms_push_steps (MSQueue.Queue.new : MSQueue.Queue Nat) 7 1 0
      { data := none, next := none } rfl rfl⟩

/-- C5: in every reachable queue state — starting from the freshly
constructed queue whose head and tail both point at one sentinel — the head
and tail pointers are non-null, and `try_pop` returns nothing (leaving the
state unchanged) exactly when the head node's next link is null.  Closure
of `Reachable` under `push` and `try_pop` makes this an invariant preserved
by both operations. -/
theorem ms_queue_sentinel_invariant {α : Type} (q : MSQueue.Queue α)
    (h : MSQueue.Queue.Reachable q) :
    q.head.isSome ∧ q.tail.isSome ∧
      (MSQueue.Queue.tryPop 1 q = some (none, q) ↔
        MSQueue.Queue.headNextNull q = true) := by
  obtain ⟨vs, hrep⟩ := MSQueue.Queue.reachable_rep h
  obtain ⟨ha, ta, sp, hh, ht, hseg, hperm⟩ := id hrep
  refine ⟨by rw [hh]; rfl, by rw [ht]; rfl, ?_⟩
  cases vs with
  | nil =>
    obtain ⟨hta, hsp, n, h1, h2⟩ := hseg.nil_inv
    constructor
    · intro _
      simp [MSQueue.Queue.headNextNull, hh, h1, h2]
    · intro _
      exact MSQueue.Queue.pop_spec_nil hrep 0
  | cons v vs' =>
    obtain ⟨n, b, m, sp', h1, h2, h3, h4, hsp, h5⟩ := hseg.cons_inv
    constructor
    · intro hpop
      obtain ⟨ha2, q2, hhead2, hpop2, _, _, _⟩ := MSQueue.Queue.pop_spec_cons hrep
      have h0 : MSQueue.Queue.tryPop 1 q = some (some v, q2) := hpop2 0
      rw [h0] at hpop
      simp at hpop
    · intro hnull
      exfalso
      simp [MSQueue.Queue.headNextNull, hh, h1, h2] at hnull

theorem ms_queue_sentinel_invariant_witness :
    MSQueue.Queue.Reachable (MSQueue.Queue.new : MSQueue.Queue Nat) ∧
    ((MSQueue.Queue.new : MSQueue.Queue Nat).head.isSome ∧
      (MSQueue.Queue.new : MSQueue.Queue Nat).tail.isSome ∧
      (MSQueue.Queue.tryPop 1 (MSQueue.Queue.new : MSQueue.Queue Nat) =
          some (none, MSQueue.Queue.new) ↔
        MSQueue.Queue.headNextNull (MSQueue.Queue.new : MSQueue.Queue Nat) = true)) :=
  ⟨MSQueue.Queue.Reachable.init,
    ms_queue_sentinel_invariant MSQueue.Queue.new MSQueue.Queue.Reachable.init⟩

/-- C6: `try_pop` on an empty queue or empty stack returns nothing, leaves
the state completely unchanged (so repeated calls keep returning nothing),
never gets stuck, and a push performed afterwards succeeds and is observed
by a subsequent `try_pop`. -/
theorem empty_try_pop_harmless {α : Type} (q : MSQueue.Queue α)
    (s : TreiberStack.Stack α)
    (hq : MSQueue.QRep q []) (hs : TreiberStack.SRep s []) :
    MSQueue.Queue.tryPop 1 q = some (none, q) ∧
    TreiberStack.Stack.tryPop 1 s = some (none, s) ∧
    (∀ v, ∃ q2 q3, MSQueue.Queue.push 1 q v = some q2 ∧
        MSQueue.Queue.tryPop 1 q2 = some (some v, q3)) ∧
    (∀ v, ∃ s2 s3, TreiberStack.Stack.push 1 s v = some s2 ∧
        TreiberStack.Stack.tryPop 1 s2 = some (some v, s3)) := by
  refine ⟨MSQueue.Queue.pop_spec_nil hq 0, TreiberStack.Stack.spec_pop_nil hs 0, ?_, ?_⟩
  · intro v
    obtain ⟨q2, hpush, hrep2, _, _, _⟩ := MSQueue.Queue.push_spec hq v
    obtain ⟨ha, q3, _, hpop, _, _, _⟩ :=
      MSQueue.Queue.pop_spec_cons (show MSQueue.QRep q2 [v] by simpa using hrep2)
    exact ⟨q2, q3, hpush 0, hpop 0⟩
  · intro v
    obtain ⟨s2, hpush, hrep2, _, _⟩ := TreiberStack.Stack.spec_push hs v
    obtain ⟨ha, s3, _, hpop, _, _, _⟩ := TreiberStack.Stack.spec_pop_cons hrep2
    exact ⟨s2, s3, hpush 0, hpop 0⟩

theorem empty_try_pop_harmless_witness :
    MSQueue.QRep (MSQueue.Queue.new : MSQueue.Queue Nat) [] ∧
    TreiberStack.SRep (TreiberStack.Stack.new : TreiberStack.Stack Nat) [] ∧
    (MSQueue.Queue.tryPop 1 (MSQueue.Queue.new : MSQueue.Queue Nat) =
        some (none, MSQueue.Queue.new) ∧
      TreiberStack.Stack.tryPop 1 (TreiberStack.Stack.new : TreiberStack.Stack Nat) =
        some (none, TreiberStack.Stack.new) ∧
      (∀ v, ∃ q2 q3, MSQueue.Queue.push 1 (MSQueue.Queue.new : MSQueue.Queue Nat) v = some q2 ∧
          MSQueue.Queue.tryPop 1 q2 = some (some v, q3)) ∧
      (∀ v, ∃ s2 s3,
          TreiberStack.Stack.push 1 (TreiberStack.Stack.new : TreiberStack.Stack Nat) v = some s2 ∧
          TreiberStack.Stack.tryPop 1 s2 = some (some v, s3))) :=
  ⟨MSQueue.Queue.new_rep, TreiberStack.Stack.rep_new,
    empty_try_pop_harmless MSQueue.Queue.new TreiberStack.Stack.new
      MSQueue.Queue.new_rep TreiberStack.Stack.rep_new⟩

/-- C7: `Stack::is_empty` is a single pure load of the head pointer and
returns `true` exactly when that loaded head is null; being a function of
the state, it modifies nothing. -/
theorem stack_is_empty_iff {α : Type} (s : TreiberStack.Stack α) :
    TreiberStack.Stack.isEmpty s = true ↔ s.head = none := by
  simp [TreiberStack.Stack.isEmpty]

/-- C9: dropping a queue that still holds the values `vs` pops all of them
in FIFO order and then destroys the sentinel, so teardown destroys exactly
`vs.length + 1` nodes, after which every address the queue ever allocated
has been destroyed exactly once. -/
theorem ms_queue_drop_drains_and_frees_all {α : Type} (q : MSQueue.Queue α)
    (vs : List α) (hrep : MSQueue.QRep q vs) :
    ∃ q', MSQueue.Queue.dropLoop 1 (vs.length + 1) q = some (vs, q') ∧
      q'.freed.length = q.freed.length + (vs.length + 1) ∧
      q'.freed.Perm (List.range q.nextAddr) := by
  obtain ⟨q', h1, h2, h3, _⟩ := MSQueue.Queue.dropLoop_spec vs q hrep
  exact ⟨q', h1, h3, h2⟩

theorem ms_queue_drop_witness :
    MSQueue.QRep (MSQueue.Queue.new : MSQueue.Queue Nat) [] ∧
    (∃ q', MSQueue.Queue.dropLoop 1 (List.length ([] : List Nat) + 1)
          (MSQueue.Queue.new : MSQueue.Queue Nat) = some ([], q') ∧
      q'.freed.length =
        (MSQueue.Queue.new : MSQueue.Queue Nat).freed.length +
          (List.length ([] : List Nat) + 1) ∧
      q'.freed.Perm (List.range (MSQueue.Queue.new : MSQueue.Queue Nat).nextAddr)) :=
  ⟨MSQueue.Queue.new_rep,
    ms_queue_drop_drains_and_frees_all MSQueue.Queue.new [] MSQueue.Queue.new_rep⟩

/-- C10: in a single-threaded (interference-free) execution every operation
on a well-formed queue or stack terminates on its very first loop
iteration: fuel `1` — one pass through the retry loop — already yields a
result, because no compare-and-swap can fail without interference. -/
theorem single_threaded_first_try {α : Type} (q : MSQueue.Queue α)
    (s : TreiberStack.Stack α) (vs ws : List α)
    (hq : MSQueue.QRep q vs) (hs : TreiberStack.SRep s ws) :
    (∀ v, (MSQueue.Queue.push 1 q v).isSome) ∧
    (MSQueue.Queue.tryPop 1 q).isSome ∧
    (∀ v, (TreiberStack.Stack.push 1 s v).isSome) ∧
    (TreiberStack.Stack.tryPop 1 s).isSome := by
  refine ⟨?_, ?_, ?_, ?_⟩
  · intro v
    obtain ⟨q2, hpush, _, _, _, _⟩ := MSQueue.Queue.push_spec hq v
    rw [show MSQueue.Queue.push 1 q v = some q2 from hpush 0]
    rfl
  · cases vs with
    | nil =>
      rw [show MSQueue.Queue.tryPop 1 q = some (none, q) from
        MSQueue.Queue.pop_spec_nil hq 0]
      rfl
    | cons v vs' =>
      obtain ⟨ha, q2, _, hpop, _, _, _⟩ := MSQueue.Queue.pop_spec_cons hq
      rw [show MSQueue.Queue.tryPop 1 q = some (some v, q2) from hpop 0]
      rfl
  · intro v
    obtain ⟨s2, hpush, _, _, _⟩ := TreiberStack.Stack.spec_push hs v
    rw [show TreiberStack.Stack.push 1 s v = some s2 from hpush 0]
    rfl
  · cases ws with
    | nil =>
      rw [show TreiberStack.Stack.tryPop 1 s = some (none, s) from
        TreiberStack.Stack.spec_pop_nil hs 0]
      rfl
    | cons w ws' =>
      obtain ⟨ha, s2, _, hpop, _, _, _⟩ := TreiberStack.Stack.spec_pop_cons hs
      rw [show TreiberStack.Stack.tryPop 1 s = some (some w, s2) from hpop 0]
      rfl

theorem single_threaded_first_try_witness :
    MSQueue.QRep (MSQueue.Queue.new : MSQueue.Queue Nat) [] ∧
    TreiberStack.SRep (TreiberStack.Stack.new : TreiberStack.Stack Nat) [] ∧
    ((∀ v, (MSQueue.Queue.push 1 (MSQueue.Queue.new : MSQueue.Queue Nat) v).isSome) ∧
      (MSQueue.Queue.tryPop 1 (MSQueue.Queue.new : MSQueue.Queue Nat)).isSome ∧
      (∀ v, (TreiberStack.Stack.push 1 (TreiberStack.Stack.new : TreiberStack.Stack Nat) v).isSome) ∧
      (TreiberStack.Stack.tryPop 1 (TreiberStack.Stack.new : TreiberStack.Stack Nat)).isSome) :=
  ⟨MSQueue.Queue.new_rep, TreiberStack.Stack.rep_new,
    single_threaded_first_try MSQueue.Queue.new TreiberStack.Stack.new [] []
      MSQueue.Queue.new_rep TreiberStack.Stack.rep_new⟩
